import Mathlib

/-!
Verification of the Binary Ninja Mistral renaming plugin
(`src/reverser_ai/binary_ninja/__init__.py` and the plugin entry file).

Functions are represented by natural numbers (`FunctionRef`); a `Snapshot`
records the static call-graph snapshot the worklist operates on: the list of
functions of the binary view (`bv.functions`), each function's callee list
(`current.callees`) and its current name (`current.name`).

The scheduler state carries, besides the `done` set and the `todo` worklist
of the Python code, two observer logs: `applied` records every rename
committed through the rename applier (function, new name), and
`oracleCalls` records every invocation of the GPT suggestion oracle.
The `done` set of the Python code is a `set()`; it is modelled as a
duplicate-free list so that the order in which functions are finalized is
also visible to the theorems.
-/

namespace BinjaMistral

/-- A snapshot of the call graph of the binary view: the functions of
`bv.functions`, their callee lists and their current names. -/
structure Snapshot where
  funcs : List Nat
  callees : Nat → List Nat
  name : Nat → String

/-- Lower-case hexadecimal digit test used by the placeholder-name pattern. -/
def isHexDigitChar (c : Char) : Bool :=
  c.isDigit || (decide ('a' ≤ c) && decide (c ≤ 'f'))

/-- Modelled from the spec: `is_derived_func_name` lives in
`reverser_ai/binary_ninja/utils.py`, which is not under `src/` (only its
caller is). Per the spec, the name classifier decides whether an existing
function name already looks "meaningful (derived by a human/tooling)"
versus an auto-generated placeholder; it returns `false` exactly for names
matching the host's placeholder pattern (a fixed prefix `sub_` followed
only by a nonempty hexadecimal address) and `true` otherwise, treating
ambiguous names conservatively as meaningful. -/
def is_derived_func_name (name : String) : Bool :=
  match name.data with
  | 's' :: 'u' :: 'b' :: '_' :: rest => !(!rest.isEmpty && rest.all isHexDigitChar)
  | _ => true

/-- Modelled from the spec: `FunctionNameGPTWrapper.apply_suggestion` lives in
`reverser_ai/binary_ninja/function_name_gpt_wrapper.py`, which is not under
`src/` (only its callers are). Per the spec's data flow, the single-function
rename pipeline is NameOracle → NameClassifier gate → RenameApplier: the
oracle is consulted (a failure propagates as no suggestion, never as a crash
of the run), and the suggestion is applied only when the function's current
name is not classified as meaningful. The result is the applied new name,
or `none` when no rename was committed. -/
def apply_suggestion (oracle : Nat → Option String) (g : Snapshot) (f : Nat) :
    Option String :=
  match oracle f with
  | none => none
  | some suggestion =>
      if is_derived_func_name (g.name f) then none else some suggestion

/-- Embedding of `plugin_wrapper_rename_function`: the single-function rename
path retrieves the shared wrapper and applies the GPT suggestion to `f`;
the returned value is the rename committed by the path (if any). -/
def plugin_wrapper_rename_function (oracle : Nat → Option String)
    (g : Snapshot) (f : Nat) : Option String :=
  apply_suggestion oracle g f

/-- State of the worklist loop of `plugin_wrapper_rename_all_functions`,
plus the two observer logs (`applied`, `oracleCalls`).
`todo` is kept with its most recently appended element first, so Python's
`todo.pop()` is the head and `todo.append(x)` conses `x`. -/
structure SchedState where
  done : List Nat
  todo : List Nat
  applied : List (Nat × String)
  oracleCalls : List Nat
deriving Repr, DecidableEq

/-- One iteration of the `while len(todo) != 0` loop body of
`plugin_wrapper_rename_all_functions` (identity on an empty worklist):
pop `current`; discard it if already done; otherwise, if every callee is
done, apply the gated suggestion and add `current` to `done`; in either of
those two cases re-append `current` and then every callee not in `done`
(Python appends `current` first and then the callees in order, so with the
most recent element first the re-appended block is the reversed filtered
callee list followed by `current`). -/
def stepFn (oracle : Nat → Option String) (g : Snapshot) (s : SchedState) :
    SchedState :=
  match s.todo with
  | [] => s
  | current :: rest =>
    if current ∈ s.done then
      { s with todo := rest }
    else if ∀ c ∈ g.callees current, c ∈ s.done then
      let s1 :=
        if is_derived_func_name (g.name current) then s
        else
          match apply_suggestion oracle g current with
          | some newName =>
              { s with oracleCalls := s.oracleCalls ++ [current],
                       applied := s.applied ++ [(current, newName)] }
          | none => { s with oracleCalls := s.oracleCalls ++ [current] }
      { done := s1.done ++ [current],
        todo := ((g.callees current).filter
            (fun c => decide (c ∉ s1.done ++ [current]))).reverse
          ++ current :: rest,
        applied := s1.applied,
        oracleCalls := s1.oracleCalls }
    else
      { s with todo := ((g.callees current).filter
            (fun c => decide (c ∉ s.done))).reverse ++ current :: rest }

/-- Fuel-indexed run of the worklist loop: `some` final state when the
worklist empties within `fuel` iterations, `none` when the fuel is
exhausted with a non-empty worklist. -/
def runSched (oracle : Nat → Option String) (g : Snapshot) :
    Nat → SchedState → Option SchedState
  | 0, s => match s.todo with
    | [] => some s
    | _ :: _ => none
  | fuel + 1, s => match s.todo with
    | [] => some s
    | _ :: _ => runSched oracle g fuel (stepFn oracle g s)

/-- The state right before the loop: `done = set()`, and the worklist holds
every function of the binary view (`done` is empty, so the membership test
of the population loop lets all of them through); Python's list has the most
recently appended function last, so with the most recent element first the
initial worklist is the reversed function list. -/
def initState (g : Snapshot) : SchedState :=
  { done := [], todo := g.funcs.reverse, applied := [], oracleCalls := [] }

/-- Embedding of `plugin_wrapper_rename_all_functions`, run with the given
amount of fuel. -/
def plugin_wrapper_rename_all_functions (oracle : Nat → Option String)
    (g : Snapshot) (fuel : Nat) : Option SchedState :=
  runSched oracle g fuel (initState g)

/-- The whole-program worklist loop terminates on `g`: some finite fuel
suffices to empty the worklist. -/
def schedTerminates (oracle : Nat → Option String) (g : Snapshot) : Prop :=
  ∃ fuel r, plugin_wrapper_rename_all_functions oracle g fuel = some r

/-- Every callee reference of a snapshot function resolves inside the
snapshot (the call graph is closed: no dangling references). -/
def Closed (g : Snapshot) : Prop :=
  ∀ f ∈ g.funcs, ∀ c ∈ g.callees f, c ∈ g.funcs

/-- `rank` is a topological ranking of the snapshot's call graph: every
call edge strictly decreases it. For a finite graph such a ranking exists
exactly when the graph is acyclic (no self-loops, no cycles). -/
def Ranked (g : Snapshot) (rank : Nat → Nat) : Prop :=
  ∀ f ∈ g.funcs, ∀ c ∈ g.callees f, rank c < rank f

/-- Total number of call edges of the snapshot. -/
def numEdges (g : Snapshot) : Nat :=
  (g.funcs.map (fun f => (g.callees f).length)).sum

/-- Explicit fuel bound used for the termination theorems, expressed in the
number of functions `n` and the number of edges `e` of the snapshot
(instantiated at `schedFuel n e n n`). -/
def schedFuel (n e : Nat) : Nat → Nat → Nat
  | 0, t => t
  | a + 1, t => t + n + schedFuel n e a (t + n * (e + 1))

/-- Internal well-formedness of a scheduler state: worklist and done set
hold snapshot functions only, and the done set is duplicate-free. -/
def SchedWF (g : Snapshot) (s : SchedState) : Prop :=
  (∀ x ∈ s.todo, x ∈ g.funcs) ∧ (∀ x ∈ s.done, x ∈ g.funcs) ∧ s.done.Nodup

/-- Log invariant of a scheduler state: the done set and both observer logs
are duplicate-free, logged functions are done, and every committed rename
carries an oracle suggestion for a function whose name was not classified
as meaningful. -/
def LogInv (o : Nat → Option String) (g : Snapshot) (s : SchedState) : Prop :=
  s.done.Nodup ∧ s.oracleCalls.Nodup ∧ (s.applied.map Prod.fst).Nodup ∧
  (∀ x ∈ s.oracleCalls, x ∈ s.done) ∧
  (∀ p ∈ s.applied, p.1 ∈ s.done ∧ o p.1 = some p.2 ∧
    is_derived_func_name (g.name p.1) = false)

/- Concrete scenario: `{main ↦ 0, helper1 ↦ 1, helper2 ↦ 2}` with
`main → helper1 → helper2` and placeholder names everywhere. -/

/-- The three-function chain snapshot of the spec's first scenario. -/
def graph3 : Snapshot :=
  { funcs := [0, 1, 2]
    callees := fun f => if f = 0 then [1] else if f = 1 then [2] else []
    name := fun f => if f = 0 then "sub_a1" else if f = 1 then "sub_b2" else "sub_c3" }

/-- An oracle producing a suggestion for each of the three functions. -/
def oracle3 : Nat → Option String :=
  fun f => if f = 0 then some "main_logic"
           else if f = 1 then some "helper_one" else some "parse_data"

/-- A topological ranking of `graph3`. -/
def rank3 : Nat → Nat := fun f => 2 - f

/-- An oracle that fails (no suggestion) exactly on function `1`. -/
def oracleFail1 : Nat → Option String :=
  fun f => if f = 1 then none else oracle3 f

/-- The pure two-cycle snapshot `{a ↦ 0, b ↦ 1}`, `a → b → a`, both
placeholder-named. -/
def cyc2 : Snapshot :=
  { funcs := [0, 1]
    callees := fun f => if f = 0 then [1] else if f = 1 then [0] else []
    name := fun f => if f = 0 then "sub_10" else "sub_11" }

/- Singleton manager (`BinjaFunctionNameGPTManager`). Wrapper instances are
given a construction identity so that two distinct constructions are
distinguishable; the process state additionally counts constructions. -/

/-- A constructed `FunctionNameGPTWrapper` instance, identified by its
construction number. -/
structure FunctionNameGPTWrapper where
  ident : Nat
deriving Repr, DecidableEq

/-- The manager object: its only attribute is the optional singleton. -/
structure BinjaFunctionNameGPTManager where
  _binja_function_name_gpt : Option FunctionNameGPTWrapper
deriving Repr, DecidableEq

/-- Process-level state around the manager: the global `manager` variable,
a fresh-identity counter, and the number of `FunctionNameGPTWrapper()`
constructor invocations so far. -/
structure ProcessState where
  manager : BinjaFunctionNameGPTManager
  nextId : Nat
  constructions : Nat
deriving Repr, DecidableEq

/-- Embedding of `BinjaFunctionNameGPTManager.get_instance`: if the stored
instance is `None`, construct a new wrapper and store it; return the stored
instance. -/
def get_instance (p : ProcessState) : ProcessState × FunctionNameGPTWrapper :=
  match p.manager._binja_function_name_gpt with
  | none =>
      let w : FunctionNameGPTWrapper := ⟨p.nextId⟩
      (⟨⟨some w⟩, p.nextId + 1, p.constructions + 1⟩, w)
  | some w => (p, w)

/-- Process start: the module-level `manager = BinjaFunctionNameGPTManager()`
with `_binja_function_name_gpt = None`; nothing constructed yet. -/
def initProcess : ProcessState :=
  { manager := ⟨none⟩, nextId := 0, constructions := 0 }

/-- A sequential sequence of `n` calls to `get_instance`, returning the
final process state and every wrapper handed out, in call order. -/
def callSeq : Nat → ProcessState → ProcessState × List FunctionNameGPTWrapper
  | 0, p => (p, [])
  | n + 1, p =>
      let q := get_instance p
      let rec1 := callSeq n q.1
      (rec1.1, q.2 :: rec1.2)

/- Interleaved execution of `get_instance` by two background task threads.
Each thread runs the body of `get_instance` in two atomic steps, exactly as
the Python statement sequence interleaves: first it evaluates the condition
`self._binja_function_name_gpt is None` (a read of the shared attribute);
then, if it observed `None`, it constructs a wrapper and assigns it to the
shared attribute (construction and assignment taken together as one atomic
step — the race demonstrated below does not depend on splitting them). -/

/-- Per-thread progress through the body of `get_instance`. -/
inductive ThreadState where
  | atCheck : ThreadState
  | observed : Option FunctionNameGPTWrapper → ThreadState
  | finished : ThreadState
deriving Repr, DecidableEq

/-- Shared-memory state for two threads concurrently calling
`get_instance` on the one global manager. -/
structure ConcState where
  manager : BinjaFunctionNameGPTManager
  nextId : Nat
  constructions : Nat
  thread : Bool → ThreadState
deriving DecidableEq

/-- One atomic step of thread `t`. -/
def concStep (t : Bool) (c : ConcState) : ConcState :=
  match c.thread t with
  | ThreadState.atCheck =>
      { c with thread := fun u =>
          if u = t then ThreadState.observed c.manager._binja_function_name_gpt
          else c.thread u }
  | ThreadState.observed v =>
      match v with
      | none =>
          { manager := ⟨some ⟨c.nextId⟩⟩
            nextId := c.nextId + 1
            constructions := c.constructions + 1
            thread := fun u => if u = t then ThreadState.finished else c.thread u }
      | some _ =>
          { c with thread := fun u =>
              if u = t then ThreadState.finished else c.thread u }
  | ThreadState.finished => c

/-- Run a schedule (a list of thread identifiers, executed left to right). -/
def runConc (schedule : List Bool) (c : ConcState) : ConcState :=
  schedule.foldl (fun c t => concStep t c) c

/-- Both threads poised to execute `get_instance` on the fresh global
manager. -/
def initConc : ConcState :=
  { manager := ⟨none⟩, nextId := 0, constructions := 0
    thread := fun _ => ThreadState.atCheck }

/-- A two-function snapshot whose callee `1` already carries the meaningful
name `ParseHeader` while its caller `0` is placeholder-named. -/
def graphNamed : Snapshot :=
  { funcs := [0, 1]
    callees := fun f => if f = 0 then [1] else []
    name := fun f => if f = 1 then "ParseHeader" else "sub_a1" }

/-! ### Basic facts about one loop iteration -/

theorem stepFn_nil {o : Nat → Option String} {g : Snapshot} {s : SchedState}
    (h : s.todo = []) : stepFn o g s = s := by
  unfold stepFn
  rw [h]

theorem stepFn_done {o : Nat → Option String} {g : Snapshot} {s : SchedState}
    {current : Nat} {rest : List Nat}
    (h : s.todo = current :: rest) (hd : current ∈ s.done) :
    stepFn o g s = { s with todo := rest } := by
  unfold stepFn
  rw [h]
  simp only [if_pos hd]

theorem stepFn_unready {o : Nat → Option String} {g : Snapshot} {s : SchedState}
    {current : Nat} {rest : List Nat}
    (h : s.todo = current :: rest) (hd : current ∉ s.done)
    (hr : ¬ ∀ c ∈ g.callees current, c ∈ s.done) :
    stepFn o g s = { s with todo := ((g.callees current).filter
        (fun c => decide (c ∉ s.done))).reverse ++ current :: rest } := by
  unfold stepFn
  rw [h]
  simp only [if_neg hd, if_neg hr]

theorem ready_filter_nil {g : Snapshot} {current : Nat} {d : List Nat}
    (hr : ∀ c ∈ g.callees current, c ∈ d) :
    (g.callees current).filter (fun c => decide (c ∉ d ++ [current])) = [] := by
  apply List.filter_eq_nil_iff.mpr
  intro c hc
  have : c ∈ d ++ [current] := List.mem_append_left _ (hr c hc)
  simp [this]

theorem stepFn_ready_meaningful {o : Nat → Option String} {g : Snapshot}
    {s : SchedState} {current : Nat} {rest : List Nat}
    (h : s.todo = current :: rest) (hd : current ∉ s.done)
    (hr : ∀ c ∈ g.callees current, c ∈ s.done)
    (hgate : is_derived_func_name (g.name current) = true) :
    stepFn o g s = { done := s.done ++ [current], todo := current :: rest,
                     applied := s.applied, oracleCalls := s.oracleCalls } := by
  simp only [stepFn, h]
  rw [if_neg hd, if_pos hr]
  simp only [hgate, if_true, ready_filter_nil hr, List.reverse_nil,
    List.nil_append]

theorem stepFn_ready_apply {o : Nat → Option String} {g : Snapshot}
    {s : SchedState} {current : Nat} {rest : List Nat} {nn : String}
    (h : s.todo = current :: rest) (hd : current ∉ s.done)
    (hr : ∀ c ∈ g.callees current, c ∈ s.done)
    (hgate : is_derived_func_name (g.name current) = false)
    (hor : apply_suggestion o g current = some nn) :
    stepFn o g s = { done := s.done ++ [current], todo := current :: rest,
                     applied := s.applied ++ [(current, nn)],
                     oracleCalls := s.oracleCalls ++ [current] } := by
  simp only [stepFn, h]
  rw [if_neg hd, if_pos hr]
  simp only [hgate, Bool.false_eq_true, if_false, hor,
    ready_filter_nil hr, List.reverse_nil, List.nil_append]

theorem stepFn_ready_orfail {o : Nat → Option String} {g : Snapshot}
    {s : SchedState} {current : Nat} {rest : List Nat}
    (h : s.todo = current :: rest) (hd : current ∉ s.done)
    (hr : ∀ c ∈ g.callees current, c ∈ s.done)
    (hgate : is_derived_func_name (g.name current) = false)
    (hor : apply_suggestion o g current = none) :
    stepFn o g s = { done := s.done ++ [current], todo := current :: rest,
                     applied := s.applied,
                     oracleCalls := s.oracleCalls ++ [current] } := by
  simp only [stepFn, h]
  rw [if_neg hd, if_pos hr]
  simp only [hgate, Bool.false_eq_true, if_false, hor,
    ready_filter_nil hr, List.reverse_nil, List.nil_append]

theorem stepFn_ready_parts {o : Nat → Option String} {g : Snapshot}
    {s : SchedState} {current : Nat} {rest : List Nat}
    (h : s.todo = current :: rest) (hd : current ∉ s.done)
    (hr : ∀ c ∈ g.callees current, c ∈ s.done) :
    (stepFn o g s).done = s.done ++ [current] ∧
    (stepFn o g s).todo = current :: rest ∧
    ((stepFn o g s).applied = s.applied ∨
      ∃ nn, apply_suggestion o g current = some nn ∧
        is_derived_func_name (g.name current) = false ∧
        (stepFn o g s).applied = s.applied ++ [(current, nn)]) ∧
    ((stepFn o g s).oracleCalls = s.oracleCalls ∨
      (stepFn o g s).oracleCalls = s.oracleCalls ++ [current]) ∧
    (is_derived_func_name (g.name current) = true →
      (stepFn o g s).applied = s.applied ∧
      (stepFn o g s).oracleCalls = s.oracleCalls) := by
  cases hgate : is_derived_func_name (g.name current) with
  | true =>
      rw [stepFn_ready_meaningful h hd hr hgate]
      exact ⟨rfl, rfl, Or.inl rfl, Or.inl rfl, fun _ => ⟨rfl, rfl⟩⟩
  | false =>
      cases hor : apply_suggestion o g current with
      | none =>
          rw [stepFn_ready_orfail h hd hr hgate hor]
          exact ⟨rfl, rfl, Or.inl rfl, Or.inr rfl,
            fun hc => absurd hc Bool.false_ne_true⟩
      | some nn =>
          rw [stepFn_ready_apply h hd hr hgate hor]
          exact ⟨rfl, rfl, Or.inr ⟨nn, rfl, rfl, rfl⟩, Or.inr rfl,
            fun hc => absurd hc Bool.false_ne_true⟩

/-- How the done set can change in one iteration: either it is untouched, or
the popped function was not yet done, all its callees were done, and it is
appended. -/
theorem done_change {o : Nat → Option String} {g : Snapshot} {s : SchedState} :
    (stepFn o g s).done = s.done ∨
    ∃ current rest, s.todo = current :: rest ∧ current ∉ s.done ∧
      (∀ c ∈ g.callees current, c ∈ s.done) ∧
      (stepFn o g s).done = s.done ++ [current] := by
  cases htodo : s.todo with
  | nil => exact Or.inl (by rw [stepFn_nil htodo])
  | cons current rest =>
      by_cases hd : current ∈ s.done
      · exact Or.inl (by rw [stepFn_done htodo hd])
      · by_cases hr : ∀ c ∈ g.callees current, c ∈ s.done
        · exact Or.inr ⟨current, rest, rfl, hd, hr,
            (stepFn_ready_parts htodo hd hr).1⟩
        · exact Or.inl (by rw [stepFn_unready htodo hd hr])

/-- The observer logs can only grow (by elements characterized elsewhere). -/
theorem logs_change {o : Nat → Option String} {g : Snapshot} {s : SchedState} :
    ((stepFn o g s).applied = s.applied ∨
      ∃ current rest nn, s.todo = current :: rest ∧ current ∉ s.done ∧
        apply_suggestion o g current = some nn ∧
        is_derived_func_name (g.name current) = false ∧
        (stepFn o g s).applied = s.applied ++ [(current, nn)]) ∧
    ((stepFn o g s).oracleCalls = s.oracleCalls ∨
      ∃ current rest, s.todo = current :: rest ∧ current ∉ s.done ∧
        (stepFn o g s).oracleCalls = s.oracleCalls ++ [current]) := by
  cases htodo : s.todo with
  | nil => rw [stepFn_nil htodo]; exact ⟨Or.inl rfl, Or.inl rfl⟩
  | cons current rest =>
      by_cases hd : current ∈ s.done
      · rw [stepFn_done htodo hd]; exact ⟨Or.inl rfl, Or.inl rfl⟩
      · by_cases hr : ∀ c ∈ g.callees current, c ∈ s.done
        · obtain ⟨-, -, happ, hoc, -⟩ := stepFn_ready_parts (o := o) htodo hd hr
          constructor
          · rcases happ with happ | ⟨nn, h1, h2, h3⟩
            · exact Or.inl happ
            · exact Or.inr ⟨current, rest, nn, rfl, hd, h1, h2, h3⟩
          · rcases hoc with hoc | hoc
            · exact Or.inl hoc
            · exact Or.inr ⟨current, rest, rfl, hd, hoc⟩
        · rw [stepFn_unready htodo hd hr]; exact ⟨Or.inl rfl, Or.inl rfl⟩

/-! ### Facts about the fuel-indexed run -/

theorem runSched_nil {o : Nat → Option String} {g : Snapshot} {s : SchedState}
    (h : s.todo = []) (fuel : Nat) : runSched o g fuel s = some s := by
  cases fuel with
  | zero => simp only [runSched, h]
  | succ n => simp only [runSched, h]

theorem runSched_zero_cons {o : Nat → Option String} {g : Snapshot}
    {s : SchedState} {c : Nat} {r : List Nat} (h : s.todo = c :: r) :
    runSched o g 0 s = none := by
  simp only [runSched, h]

theorem runSched_succ_cons {o : Nat → Option String} {g : Snapshot}
    {s : SchedState} {c : Nat} {r : List Nat} {fuel : Nat}
    (h : s.todo = c :: r) :
    runSched o g (fuel + 1) s = runSched o g fuel (stepFn o g s) := by
  simp only [runSched, h]

/-- Extra fuel never changes a successful run. -/
theorem runSched_mono {o : Nat → Option String} {g : Snapshot} :
    ∀ {fuel : Nat} {s r : SchedState}, runSched o g fuel s = some r →
      ∀ {fuel' : Nat}, fuel ≤ fuel' → runSched o g fuel' s = some r := by
  intro fuel
  induction fuel with
  | zero =>
      intro s r hrun fuel' _
      cases htodo : s.todo with
      | nil =>
          rw [runSched_nil htodo] at hrun
          rw [runSched_nil htodo]
          exact hrun
      | cons c t => rw [runSched_zero_cons htodo] at hrun; cases hrun
  | succ n ih =>
      intro s r hrun fuel' hle
      cases htodo : s.todo with
      | nil =>
          rw [runSched_nil htodo] at hrun
          rw [runSched_nil htodo]
          exact hrun
      | cons c t =>
          rw [runSched_succ_cons htodo] at hrun
          obtain ⟨m, rfl⟩ : ∃ m, fuel' = m + 1 := by
            cases fuel' with
            | zero => omega
            | succ m => exact ⟨m, rfl⟩
          rw [runSched_succ_cons htodo]
          exact ih hrun (by omega)

/-- A state with an empty worklist is a fixed point of the loop body. -/
theorem stepFn_iterate_nil {o : Nat → Option String} {g : Snapshot}
    {s : SchedState} (h : s.todo = []) (j : Nat) :
    (stepFn o g)^[j] s = s := by
  induction j with
  | zero => rfl
  | succ n ih => rw [Function.iterate_succ_apply, stepFn_nil h, ih]

/-- A successful run from the `j`-th iterate yields a successful run from the
start, with `j` more units of fuel. -/
theorem runSched_of_iterate {o : Nat → Option String} {g : Snapshot} :
    ∀ {j fuel : Nat} {s r : SchedState},
      runSched o g fuel ((stepFn o g)^[j] s) = some r →
      runSched o g (j + fuel) s = some r := by
  intro j
  induction j with
  | zero => intro fuel s r h; simpa using h
  | succ n ih =>
      intro fuel s r h
      cases htodo : s.todo with
      | nil =>
          rw [stepFn_iterate_nil htodo] at h
          rw [runSched_nil htodo] at h ⊢
          exact h
      | cons c t =>
          have hstep : (stepFn o g)^[n + 1] s = (stepFn o g)^[n] (stepFn o g s) :=
            Function.iterate_succ_apply _ _ _
          rw [hstep] at h
          have : runSched o g (n + fuel) (stepFn o g s) = some r := ih h
          calc runSched o g (n + 1 + fuel) s
              = runSched o g ((n + fuel) + 1) s := by ring_nf
            _ = runSched o g (n + fuel) (stepFn o g s) := runSched_succ_cons htodo
            _ = some r := this

/-- A successful run is some iterate of the loop body, with an empty final
worklist. -/
theorem runSched_some_iterate {o : Nat → Option String} {g : Snapshot} :
    ∀ {fuel : Nat} {s r : SchedState}, runSched o g fuel s = some r →
      ∃ j, j ≤ fuel ∧ r = (stepFn o g)^[j] s ∧ r.todo = [] := by
  intro fuel
  induction fuel with
  | zero =>
      intro s r hrun
      cases htodo : s.todo with
      | nil =>
          rw [runSched_nil htodo] at hrun
          exact ⟨0, le_refl _, by simpa using (Option.some_injective _ hrun).symm,
            by rw [← Option.some_injective _ hrun]; exact htodo⟩
      | cons c t => rw [runSched_zero_cons htodo] at hrun; cases hrun
  | succ n ih =>
      intro s r hrun
      cases htodo : s.todo with
      | nil =>
          rw [runSched_nil htodo] at hrun
          exact ⟨0, Nat.zero_le _, by simpa using (Option.some_injective _ hrun).symm,
            by rw [← Option.some_injective _ hrun]; exact htodo⟩
      | cons c t =>
          rw [runSched_succ_cons htodo] at hrun
          obtain ⟨j, hj, hr, hnil⟩ := ih hrun
          exact ⟨j + 1, by omega,
            by rw [hr, Function.iterate_succ_apply], hnil⟩

/-- Transport of an invariant along the iterates of the loop body. -/
theorem iterate_invariant {o : Nat → Option String} {g : Snapshot}
    {P : SchedState → Prop} (hP : ∀ s, P s → P (stepFn o g s)) :
    ∀ (j : Nat) (s : SchedState), P s → P ((stepFn o g)^[j] s) := by
  intro j
  induction j with
  | zero => intro s hs; exact hs
  | succ n ih =>
      intro s hs
      rw [Function.iterate_succ_apply]
      exact ih _ (hP _ hs)

/-! ### Preserved invariants -/

theorem wf_step {o : Nat → Option String} {g : Snapshot} (hc : Closed g)
    {s : SchedState} (hwf : SchedWF g s) : SchedWF g (stepFn o g s) := by
  obtain ⟨htodo, hdone, hnd⟩ := hwf
  cases heq : s.todo with
  | nil => rw [stepFn_nil heq]; exact ⟨htodo, hdone, hnd⟩
  | cons current rest =>
      have hcur : current ∈ g.funcs := htodo current (by rw [heq]; simp)
      have hrest : ∀ x ∈ rest, x ∈ g.funcs := by
        intro x hx
        exact htodo x (by rw [heq]; simp [hx])
      by_cases hd : current ∈ s.done
      · rw [stepFn_done heq hd]
        exact ⟨hrest, hdone, hnd⟩
      · by_cases hr : ∀ c ∈ g.callees current, c ∈ s.done
        · obtain ⟨h1, h2, -, -, -⟩ := stepFn_ready_parts (o := o) heq hd hr
          refine ⟨?_, ?_, ?_⟩
          · intro x hx
            rw [h2] at hx
            rcases List.mem_cons.mp hx with rfl | hx
            · exact hcur
            · exact hrest x hx
          · intro x hx
            rw [h1] at hx
            rcases List.mem_append.mp hx with hx | hx
            · exact hdone x hx
            · rcases List.mem_singleton.mp hx with rfl
              exact hcur
          · rw [h1]
            simp only [List.nodup_append, List.nodup_cons, List.not_mem_nil,
              not_false_iff, List.nodup_nil, and_true, true_and]
            constructor
            · exact hnd
            · intro a ha
              simp only [List.mem_singleton]
              intro rfl1
              subst rfl1
              exact hd ha
        · rw [stepFn_unready heq hd hr]
          refine ⟨?_, hdone, hnd⟩
          intro x hx
          simp only [List.mem_append, List.mem_reverse, List.mem_filter,
            List.mem_cons] at hx
          rcases hx with ⟨hx, -⟩ | rfl | hx
          · exact hc current hcur x hx
          · exact hcur
          · exact hrest x hx

theorem wf_iterate {o : Nat → Option String} {g : Snapshot} (hc : Closed g)
    {s : SchedState} (hwf : SchedWF g s) (j : Nat) :
    SchedWF g ((stepFn o g)^[j] s) :=
  iterate_invariant (fun _ h => wf_step hc h) j s hwf

theorem wf_init {g : Snapshot} : SchedWF g (initState g) := by
  refine ⟨?_, ?_, ?_⟩
  · intro x hx
    simpa using (List.mem_reverse.mp hx)
  · intro x hx; cases hx
  · exact List.nodup_nil

/-- Coverage: every snapshot function is either done or still pending. -/
theorem cover_step {o : Nat → Option String} {g : Snapshot} {s : SchedState}
    (hcov : ∀ f ∈ g.funcs, f ∈ s.done ∨ f ∈ s.todo) :
    ∀ f ∈ g.funcs, f ∈ (stepFn o g s).done ∨ f ∈ (stepFn o g s).todo := by
  intro f hf
  cases heq : s.todo with
  | nil => rw [stepFn_nil heq]; exact hcov f hf
  | cons current rest =>
      by_cases hd : current ∈ s.done
      · rw [stepFn_done heq hd]
        rcases hcov f hf with h | h
        · exact Or.inl h
        · rw [heq] at h
          rcases List.mem_cons.mp h with rfl | h
          · exact Or.inl hd
          · exact Or.inr h
      · by_cases hr : ∀ c ∈ g.callees current, c ∈ s.done
        · obtain ⟨h1, h2, -, -, -⟩ := stepFn_ready_parts (o := o) heq hd hr
          rcases hcov f hf with h | h
          · exact Or.inl (by rw [h1]; exact List.mem_append_left _ h)
          · exact Or.inr (by rw [h2, ← heq]; exact h)
        · rw [stepFn_unready heq hd hr]
          rcases hcov f hf with h | h
          · exact Or.inl h
          · refine Or.inr ?_
            rw [heq] at h
            simp only [List.mem_append, List.mem_cons]
            rcases List.mem_cons.mp h with rfl | h
            · exact Or.inr (Or.inl rfl)
            · exact Or.inr (Or.inr h)

theorem cover_init {g : Snapshot} :
    ∀ f ∈ g.funcs, f ∈ (initState g).done ∨ f ∈ (initState g).todo := by
  intro f hf
  exact Or.inr (by simpa [initState] using hf)

/-- The done set only ever grows, by appending new elements at the end. -/
theorem done_iterate_append {o : Nat → Option String} {g : Snapshot}
    (s : SchedState) : ∀ (j : Nat), ∃ l, ((stepFn o g)^[j] s).done = s.done ++ l := by
  intro j
  induction j with
  | zero => exact ⟨[], by simp⟩
  | succ n ih =>
      obtain ⟨l, hl⟩ := ih
      rw [Function.iterate_succ_apply']
      rcases done_change (o := o) (g := g) (s := (stepFn o g)^[n] s) with h | ⟨c, r, -, -, -, h⟩
      · exact ⟨l, by rw [h, hl]⟩
      · exact ⟨l ++ [c], by rw [h, hl, List.append_assoc]⟩

/-- The out-degree of a snapshot function is at most the total edge count. -/
theorem degree_le_numEdges {g : Snapshot} {f : Nat} (hf : f ∈ g.funcs) :
    (g.callees f).length ≤ numEdges g := by
  unfold numEdges
  exact List.single_le_sum (by intro x _; exact Nat.zero_le x) _
    (List.mem_map_of_mem _ hf)

/-- One iteration grows the worklist by at most the total edge count. -/
theorem todo_len_step {o : Nat → Option String} {g : Snapshot} {s : SchedState}
    (hwf : SchedWF g s) :
    (stepFn o g s).todo.length ≤ s.todo.length + numEdges g := by
  obtain ⟨htodo, -, -⟩ := hwf
  cases heq : s.todo with
  | nil => rw [stepFn_nil heq, heq]; exact Nat.le_add_right _ _
  | cons current rest =>
      have hcur : current ∈ g.funcs := htodo current (by rw [heq]; simp)
      by_cases hd : current ∈ s.done
      · rw [stepFn_done heq hd]
        simp only [heq, List.length_cons]
        omega
      · by_cases hr : ∀ c ∈ g.callees current, c ∈ s.done
        · obtain ⟨-, h2, -, -, -⟩ := stepFn_ready_parts (o := o) heq hd hr
          rw [h2]
          exact Nat.le_add_right _ _
        · rw [stepFn_unready heq hd hr]
          simp only [heq, List.length_append, List.length_reverse,
            List.length_cons]
          have hfl : ((g.callees current).filter
              (fun c => decide (c ∉ s.done))).length ≤ (g.callees current).length :=
            List.length_filter_le _ _
          have hdeg := degree_le_numEdges hcur
          omega

/-- Worklist length along the iterates. -/
theorem todo_len_iterate {o : Nat → Option String} {g : Snapshot} (hc : Closed g)
    {s : SchedState} (hwf : SchedWF g s) :
    ∀ (j : Nat), ((stepFn o g)^[j] s).todo.length ≤
      s.todo.length + j * numEdges g := by
  intro j
  induction j with
  | zero => simp
  | succ n ih =>
      rw [Function.iterate_succ_apply']
      have hstep := todo_len_step (o := o) (wf_iterate (o := o) hc hwf n)
      calc (stepFn o g ((stepFn o g)^[n] s)).todo.length
          ≤ ((stepFn o g)^[n] s).todo.length + numEdges g := hstep
        _ ≤ s.todo.length + n * numEdges g + numEdges g := by omega
        _ = s.todo.length + (n + 1) * numEdges g := by ring

/-! ### Termination on acyclic snapshots -/

/-- Progress: whenever the popped function is not yet done, the done set
strictly grows within `rank current + 1` iterations — the loop either
finalizes `current` at once, or descends to a not-yet-done callee of
strictly smaller rank. -/
theorem chain_progress {o : Nat → Option String} {g : Snapshot}
    (hc : Closed g) {rank : Nat → Nat} (hrk : Ranked g rank) :
    ∀ (m : Nat) (s : SchedState) (current : Nat) (rest : List Nat),
      SchedWF g s → s.todo = current :: rest → current ∉ s.done →
      rank current ≤ m →
      ∃ k, k ≤ m ∧
        ((stepFn o g)^[k + 1] s).done.length = s.done.length + 1 := by
  intro m
  induction m with
  | zero =>
      intro s current rest hwf heq hd hm
      by_cases hr : ∀ c ∈ g.callees current, c ∈ s.done
      · obtain ⟨h1, -, -, -, -⟩ := stepFn_ready_parts (o := o) heq hd hr
        refine ⟨0, le_refl _, ?_⟩
        rw [Function.iterate_one, h1]
        simp
      · exfalso
        push_neg at hr
        obtain ⟨c, hcmem, -⟩ := hr
        have hcur : current ∈ g.funcs := hwf.1 current (by rw [heq]; simp)
        have := hrk current hcur c hcmem
        omega
  | succ m ih =>
      intro s current rest hwf heq hd hm
      by_cases hr : ∀ c ∈ g.callees current, c ∈ s.done
      · obtain ⟨h1, -, -, -, -⟩ := stepFn_ready_parts (o := o) heq hd hr
        refine ⟨0, Nat.zero_le _, ?_⟩
        rw [Function.iterate_one, h1]
        simp
      · have hcur : current ∈ g.funcs := hwf.1 current (by rw [heq]; simp)
        have hstep := stepFn_unready (o := o) heq hd hr
        push_neg at hr
        obtain ⟨c, hcmem, hcnd⟩ := hr
        have hcfil : c ∈ (g.callees current).filter
            (fun x => decide (x ∉ s.done)) := by
          rw [List.mem_filter]
          exact ⟨hcmem, by simpa using hcnd⟩
        cases hrev : ((g.callees current).filter
            (fun x => decide (x ∉ s.done))).reverse with
        | nil =>
            exfalso
            rw [List.reverse_eq_nil_iff] at hrev
            rw [hrev] at hcfil
            cases hcfil
        | cons h0 tl =>
            have hh0 : h0 ∈ (g.callees current).filter
                (fun x => decide (x ∉ s.done)) := by
              rw [← List.mem_reverse, hrev]
              simp
            rw [List.mem_filter] at hh0
            obtain ⟨hh0mem, hh0nd⟩ := hh0
            have hh0nd' : h0 ∉ s.done := by simpa using hh0nd
            have hrankh0 : rank h0 ≤ m := by
              have := hrk current hcur h0 hh0mem
              omega
            have hs'todo : (stepFn o g s).todo = h0 :: (tl ++ current :: rest) := by
              rw [hstep]
              simp only [hrev, List.cons_append]
            have hs'done : (stepFn o g s).done = s.done := by rw [hstep]
            obtain ⟨k, hk, hfin⟩ := ih (stepFn o g s) h0 (tl ++ current :: rest)
              (wf_step hc hwf) hs'todo (by rw [hs'done]; exact hh0nd') hrankh0
            refine ⟨k + 1, by omega, ?_⟩
            rw [Function.iterate_succ_apply]
            rw [hfin, hs'done]

/-- `schedFuel` is monotone in its seed worklist length. -/
theorem schedFuel_mono {n e : Nat} :
    ∀ (a : Nat) {i j : Nat}, i ≤ j → schedFuel n e a i ≤ schedFuel n e a j := by
  intro a
  induction a with
  | zero => intro i j h; exact h
  | succ b ih =>
      intro i j h
      simp only [schedFuel]
      have := ih (i := i + n * (e + 1)) (j := j + n * (e + 1)) (by omega)
      omega

/-- When the done set has reached full size, it contains every snapshot
function. -/
theorem done_full {g : Snapshot} (_hnd : g.funcs.Nodup) {s : SchedState}
    (hwf : SchedWF g s) (hlen : g.funcs.length ≤ s.done.length) :
    ∀ f ∈ g.funcs, f ∈ s.done := by
  obtain ⟨-, hdone, hdnd⟩ := hwf
  have hsub : List.Subperm s.done g.funcs := hdnd.subperm hdone
  have hperm : List.Perm s.done g.funcs := hsub.perm_of_length_le hlen
  intro f hf
  exact hperm.mem_iff.mpr hf

/-- Main induction: with the explicit fuel `schedFuel n e a t`, the loop
empties its worklist whenever at most `a` functions remain to finalize and
the worklist holds at most `t` entries. -/
theorem sched_total_aux {o : Nat → Option String} {g : Snapshot}
    (hc : Closed g) (hnd : g.funcs.Nodup) {rank : Nat → Nat}
    (hrk : Ranked g rank) (hrb : ∀ f ∈ g.funcs, rank f < g.funcs.length) :
    ∀ (a t : Nat) (s : SchedState), SchedWF g s →
      g.funcs.length - s.done.length ≤ a → s.todo.length ≤ t →
      ∃ r, runSched o g (schedFuel g.funcs.length (numEdges g) a t) s = some r := by
  intro a
  induction a with
  | zero =>
      intro t
      induction t with
      | zero =>
          intro s hwf ha ht
          have hnil : s.todo = [] := List.length_eq_zero.mp (by omega)
          exact ⟨s, runSched_nil hnil _⟩
      | succ t iht =>
          intro s hwf ha ht
          cases heq : s.todo with
          | nil => exact ⟨s, runSched_nil heq _⟩
          | cons current rest =>
              have hfull := done_full hnd hwf (by omega)
              have hd : current ∈ s.done :=
                hfull current (hwf.1 current (by rw [heq]; simp))
              have hstep := stepFn_done (o := o) (g := g) heq hd
              have hwf' : SchedWF g { s with todo := rest } := by
                refine ⟨?_, hwf.2.1, hwf.2.2⟩
                intro x hx
                exact hwf.1 x (by rw [heq]; simp [hx])
              have hrest : rest.length ≤ t := by
                have := ht
                rw [heq] at this
                simpa using this
              obtain ⟨r, hr⟩ := iht { s with todo := rest } hwf' ha hrest
              refine ⟨r, ?_⟩
              have h1 : runSched o g (schedFuel g.funcs.length (numEdges g) 0 t + 1) s
                  = some r := by
                rw [runSched_succ_cons heq, hstep]
                exact hr
              exact runSched_mono h1 (by simp only [schedFuel]; omega)
  | succ a iha =>
      intro t
      induction t with
      | zero =>
          intro s hwf ha ht
          have hnil : s.todo = [] := List.length_eq_zero.mp (by omega)
          exact ⟨s, runSched_nil hnil _⟩
      | succ t iht =>
          intro s hwf ha ht
          cases heq : s.todo with
          | nil => exact ⟨s, runSched_nil heq _⟩
          | cons current rest =>
              by_cases hd : current ∈ s.done
              · have hstep := stepFn_done (o := o) (g := g) heq hd
                have hwf' : SchedWF g { s with todo := rest } := by
                  refine ⟨?_, hwf.2.1, hwf.2.2⟩
                  intro x hx
                  exact hwf.1 x (by rw [heq]; simp [hx])
                have hrest : rest.length ≤ t := by
                  have := ht
                  rw [heq] at this
                  simpa using this
                obtain ⟨r, hr⟩ := iht { s with todo := rest } hwf' ha hrest
                refine ⟨r, ?_⟩
                have h1 : runSched o g
                    (schedFuel g.funcs.length (numEdges g) (a + 1) t + 1) s
                    = some r := by
                  rw [runSched_succ_cons heq, hstep]
                  exact hr
                refine runSched_mono h1 ?_
                have hmono := schedFuel_mono (n := g.funcs.length)
                  (e := numEdges g) a
                  (i := t + g.funcs.length * (numEdges g + 1))
                  (j := t + 1 + g.funcs.length * (numEdges g + 1)) (by omega)
                simp only [schedFuel]
                omega
              · have hcur : current ∈ g.funcs := hwf.1 current (by rw [heq]; simp)
                obtain ⟨k, hk, hfin⟩ := chain_progress (o := o) hc hrk
                  (rank current) s current rest hwf heq hd (le_refl _)
                have hkn : k + 1 ≤ g.funcs.length := by
                  have := hrb current hcur
                  omega
                have hwf2 := wf_iterate (o := o) hc hwf (k + 1)
                have ha2 : g.funcs.length - ((stepFn o g)^[k + 1] s).done.length ≤ a := by
                  rw [hfin]
                  omega
                have htlen := todo_len_iterate (o := o) hc hwf (k + 1)
                have ht2 : ((stepFn o g)^[k + 1] s).todo.length ≤
                    t + 1 + g.funcs.length * (numEdges g + 1) := by
                  have hmul : (k + 1) * numEdges g ≤
                      g.funcs.length * (numEdges g + 1) := by
                    calc (k + 1) * numEdges g
                        ≤ g.funcs.length * numEdges g :=
                          Nat.mul_le_mul_right _ hkn
                      _ ≤ g.funcs.length * (numEdges g + 1) :=
                          Nat.mul_le_mul_left _ (by omega)
                  omega
                obtain ⟨r, hr⟩ := iha (t + 1 + g.funcs.length * (numEdges g + 1))
                  ((stepFn o g)^[k + 1] s) hwf2 ha2 ht2
                refine ⟨r, ?_⟩
                have h1 := runSched_of_iterate hr
                refine runSched_mono h1 ?_
                simp only [schedFuel]
                omega

/-- Appending a fresh element preserves duplicate-freeness. -/
theorem nodup_append_singleton {l : List Nat} {x : Nat} (hl : l.Nodup)
    (hx : x ∉ l) : (l ++ [x]).Nodup := by
  rw [List.nodup_append]
  refine ⟨hl, List.nodup_singleton x, ?_⟩
  intro a ha hb
  rw [List.mem_singleton] at hb
  subst hb
  exact hx ha

/-- A committed suggestion comes from a successful oracle call on a function
whose name is not classified as meaningful. -/
theorem apply_suggestion_some {o : Nat → Option String} {g : Snapshot}
    {f : Nat} {nn : String} (h : apply_suggestion o g f = some nn) :
    o f = some nn ∧ is_derived_func_name (g.name f) = false := by
  cases ho : o f with
  | none =>
      simp only [apply_suggestion, ho] at h
      exact Option.noConfusion h
  | some sg =>
      simp only [apply_suggestion, ho] at h
      by_cases hg : is_derived_func_name (g.name f) = true
      · rw [if_pos hg] at h; cases h
      · rw [if_neg hg] at h
        injection h with h'
        subst h'
        exact ⟨rfl, by simpa using hg⟩

theorem loginv_step {o : Nat → Option String} {g : Snapshot} {s : SchedState}
    (hL : LogInv o g s) : LogInv o g (stepFn o g s) := by
  obtain ⟨h1, h2, h3, h4, h5⟩ := hL
  cases heq : s.todo with
  | nil => rw [stepFn_nil heq]; exact ⟨h1, h2, h3, h4, h5⟩
  | cons current rest =>
      by_cases hdm : current ∈ s.done
      · rw [stepFn_done heq hdm]; exact ⟨h1, h2, h3, h4, h5⟩
      · by_cases hr : ∀ c ∈ g.callees current, c ∈ s.done
        · obtain ⟨p1, -, p3, p4, -⟩ := stepFn_ready_parts (o := o) heq hdm hr
          have hocnd : current ∉ s.oracleCalls := fun hmem => hdm (h4 _ hmem)
          have hapnd : current ∉ s.applied.map Prod.fst := by
            intro hmem
            obtain ⟨p, hp, hp1⟩ := List.mem_map.mp hmem
            exact hdm (hp1 ▸ (h5 p hp).1)
          refine ⟨?_, ?_, ?_, ?_, ?_⟩
          · rw [p1]
            exact nodup_append_singleton h1 hdm
          · rcases p4 with p4 | p4
            · rw [p4]; exact h2
            · rw [p4]; exact nodup_append_singleton h2 hocnd
          · rcases p3 with p3 | ⟨nn, -, -, p3⟩
            · rw [p3]; exact h3
            · rw [p3, List.map_append]
              exact nodup_append_singleton h3 hapnd
          · intro x hx
            rw [p1]
            rcases p4 with p4 | p4
            · rw [p4] at hx
              exact List.mem_append_left _ (h4 x hx)
            · rw [p4] at hx
              rcases List.mem_append.mp hx with hx | hx
              · exact List.mem_append_left _ (h4 x hx)
              · exact List.mem_append_right _ hx
          · intro p hp
            rw [p1]
            rcases p3 with p3 | ⟨nn, hsugg, hgate, p3⟩
            · rw [p3] at hp
              obtain ⟨q1, q2, q3⟩ := h5 p hp
              exact ⟨List.mem_append_left _ q1, q2, q3⟩
            · rw [p3] at hp
              rcases List.mem_append.mp hp with hp | hp
              · obtain ⟨q1, q2, q3⟩ := h5 p hp
                exact ⟨List.mem_append_left _ q1, q2, q3⟩
              · rw [List.mem_singleton] at hp
                subst hp
                obtain ⟨ho, hg⟩ := apply_suggestion_some hsugg
                exact ⟨List.mem_append_right _ (by simp), ho, hg⟩
        · rw [stepFn_unready heq hdm hr]; exact ⟨h1, h2, h3, h4, h5⟩

theorem loginv_init {o : Nat → Option String} {g : Snapshot} :
    LogInv o g (initState g) := by
  refine ⟨List.nodup_nil, List.nodup_nil, by simp [initState], ?_, ?_⟩
  · intro x hx; cases hx
  · intro p hp; cases hp

/-- If one iteration appends `a` to the done set, then `a` was not yet done
and every callee of `a` was already done. -/
theorem done_entry {o : Nat → Option String} {g : Snapshot} {s : SchedState}
    {a : Nat} (h : (stepFn o g s).done = s.done ++ [a]) :
    a ∉ s.done ∧ ∀ c ∈ g.callees a, c ∈ s.done := by
  rcases done_change (o := o) (g := g) (s := s) with hsame | ⟨c, r, -, hd, hr, happ⟩
  · exfalso
    have := congrArg List.length (hsame.symm.trans h)
    simp at this
  · have h2 : s.done ++ [c] = s.done ++ [a] := happ.symm.trans h
    have hac : c = a := by simpa using h2
    subst hac
    exact ⟨hd, hr⟩

/-- Full-run assembly on an acyclic snapshot: with the explicit
function/edge-count fuel, the loop reaches an empty worklist and every
snapshot function is done. -/
theorem sched_total {o : Nat → Option String} {g : Snapshot}
    (hc : Closed g) (hnd : g.funcs.Nodup) {rank : Nat → Nat}
    (hrk : Ranked g rank) (hrb : ∀ f ∈ g.funcs, rank f < g.funcs.length) :
    ∃ r, plugin_wrapper_rename_all_functions o g
        (schedFuel g.funcs.length (numEdges g) g.funcs.length g.funcs.length)
        = some r ∧
      r.todo = [] ∧ (∀ f ∈ g.funcs, f ∈ r.done) ∧
      ∃ j, r = (stepFn o g)^[j] (initState g) := by
  obtain ⟨r, hr⟩ := sched_total_aux (o := o) hc hnd hrk hrb g.funcs.length
    g.funcs.length (initState g) wf_init (by simp [initState])
    (by simp [initState])
  obtain ⟨j, -, hrj, hnil⟩ := runSched_some_iterate hr
  have hcov := iterate_invariant (o := o) (g := g)
    (P := fun s => ∀ f ∈ g.funcs, f ∈ s.done ∨ f ∈ s.todo)
    (fun _ h => cover_step h) j (initState g) cover_init
  refine ⟨r, hr, hnil, ?_, ⟨j, hrj⟩⟩
  intro f hf
  rw [← hrj] at hcov
  rcases hcov f hf with h | h
  · exact h
  · rw [hnil] at h; cases h

/-- On the pure two-cycle, the loop invariant "nothing is ever done and the
worklist stays non-empty inside `{0, 1}`" is preserved forever. -/
theorem cyc2_no_fuel_suffices :
    ∀ (fuel : Nat) (s : SchedState), s.done = [] → s.todo ≠ [] →
      (∀ x ∈ s.todo, x = 0 ∨ x = 1) →
      runSched oracle3 cyc2 fuel s = none := by
  have hstep : ∀ (s : SchedState) (current : Nat) (rest : List Nat),
      s.done = [] → s.todo = current :: rest → (current = 0 ∨ current = 1) →
      (∀ x ∈ rest, x = 0 ∨ x = 1) →
      (stepFn oracle3 cyc2 s).done = [] ∧
      (stepFn oracle3 cyc2 s).todo ≠ [] ∧
      (∀ x ∈ (stepFn oracle3 cyc2 s).todo, x = 0 ∨ x = 1) := by
    intro s current rest h1 heq hcur hrest
    have hd : current ∉ s.done := by rw [h1]; simp
    have hother : ∃ y, cyc2.callees current = [y] ∧ (y = 0 ∨ y = 1) := by
      rcases hcur with rfl | rfl
      · exact ⟨1, by simp [cyc2], Or.inr rfl⟩
      · exact ⟨0, by simp [cyc2], Or.inl rfl⟩
    obtain ⟨y, hy, hyv⟩ := hother
    have hnr : ¬ ∀ c ∈ cyc2.callees current, c ∈ s.done := by
      rw [hy, h1]
      simp
    have hst := stepFn_unready (o := oracle3) heq hd hnr
    rw [hst]
    refine ⟨h1, by simp, ?_⟩
    intro x hx
    simp only [List.mem_append, List.mem_reverse, List.mem_filter,
      List.mem_cons] at hx
    rcases hx with ⟨hx, -⟩ | rfl | hx
    · rw [hy] at hx
      rw [List.mem_singleton] at hx
      subst hx
      exact hyv
    · exact hcur
    · exact hrest x hx
  intro fuel
  induction fuel with
  | zero =>
      intro s h1 h2 h3
      cases heq : s.todo with
      | nil => exact absurd heq h2
      | cons c rest => exact runSched_zero_cons heq
  | succ n ih =>
      intro s h1 h2 h3
      cases heq : s.todo with
      | nil => exact absurd heq h2
      | cons c rest =>
          rw [runSched_succ_cons heq]
          have hcv : c = 0 ∨ c = 1 := h3 c (by rw [heq]; simp)
          have hrv : ∀ x ∈ rest, x = 0 ∨ x = 1 := by
            intro x hx
            exact h3 x (by rw [heq]; simp [hx])
          obtain ⟨q1, q2, q3⟩ := hstep s c rest h1 heq hcv hrv
          exact ih _ q1 q2 q3

/-! ### Singleton manager facts -/

theorem get_instance_stable {p : ProcessState} {w : FunctionNameGPTWrapper}
    (h : p.manager._binja_function_name_gpt = some w) :
    get_instance p = (p, w) := by
  unfold get_instance
  rw [h]

theorem callSeq_stable {w : FunctionNameGPTWrapper} :
    ∀ (n : Nat) (p : ProcessState),
      p.manager._binja_function_name_gpt = some w →
      callSeq n p = (p, List.replicate n w) := by
  intro n
  induction n with
  | zero => intro p h; rfl
  | succ m ih =>
      intro p h
      simp only [callSeq, get_instance_stable h, ih p h, List.replicate_succ]

/-! ### Claim theorems -/

/-- Claim C1: in the whole-program rename, for every function popped from
the worklist whose callees are all done: if its existing name is classified
as meaningful, nothing is passed to the rename applier (and the oracle is
not consulted); a suggestion is applied only when the existing name is not
classified as meaningful; and in either case the function is added to the
done set. -/
theorem rename_all_skip_invariant (o : Nat → Option String) (g : Snapshot)
    (s : SchedState) (current : Nat) (rest : List Nat)
    (htodo : s.todo = current :: rest) (hd : current ∉ s.done)
    (hready : ∀ c ∈ g.callees current, c ∈ s.done) :
    (is_derived_func_name (g.name current) = true →
      (stepFn o g s).applied = s.applied ∧
      (stepFn o g s).oracleCalls = s.oracleCalls) ∧
    (∀ p ∈ (stepFn o g s).applied, p ∈ s.applied ∨
      (p.1 = current ∧ is_derived_func_name (g.name current) = false)) ∧
    current ∈ (stepFn o g s).done := by
  obtain ⟨p1, -, p3, -, p5⟩ := stepFn_ready_parts (o := o) htodo hd hready
  refine ⟨p5, ?_, ?_⟩
  · intro p hp
    rcases p3 with p3 | ⟨nn, -, hgate, p3⟩
    · exact Or.inl (p3 ▸ hp)
    · rw [p3] at hp
      rcases List.mem_append.mp hp with hp | hp
      · exact Or.inl hp
      · rw [List.mem_singleton] at hp
        subst hp
        exact Or.inr ⟨rfl, hgate⟩
  · rw [p1]
    simp

/-- Witness for C1 at the first iteration on the three-function chain. -/
theorem rename_all_skip_invariant_witness :
    (initState graph3).todo = 2 :: [1, 0] ∧
    (2 ∉ (initState graph3).done) ∧
    (∀ c ∈ graph3.callees 2, c ∈ (initState graph3).done) ∧
    2 ∈ (stepFn oracle3 graph3 (initState graph3)).done :=
  ⟨by decide, by decide, by decide,
    (rename_all_skip_invariant oracle3 graph3 (initState graph3) 2 [1, 0]
      (by decide) (by decide) (by decide)).2.2⟩

/-- Claim C2: the single-function rename path gates the oracle's suggestion
through the name classifier, so a function whose current name is classified
as meaningful is not renamed by this path. -/
theorem rename_function_meaningful_skip (o : Nat → Option String)
    (g : Snapshot) (f : Nat)
    (hmean : is_derived_func_name (g.name f) = true) :
    plugin_wrapper_rename_function o g f = none := by
  cases ho : o f with
  | none => simp [plugin_wrapper_rename_function, apply_suggestion, ho]
  | some sg =>
      simp [plugin_wrapper_rename_function, apply_suggestion, ho, hmean]

/-- Witness for C2 on the meaningfully named function `ParseHeader`. -/
theorem rename_function_meaningful_skip_witness :
    is_derived_func_name (graphNamed.name 1) = true ∧
    plugin_wrapper_rename_function oracle3 graphNamed 1 = none :=
  ⟨by decide, rename_function_meaningful_skip oracle3 graphNamed 1 (by decide)⟩

/-- Claim C3, counterexample: on the pure two-cycle `{a → b, b → a}` with
placeholder names, the worklist loop of the whole-program rename never
terminates — no amount of fuel empties the worklist, because the code
implements no cycle-resolution policy. -/
theorem rename_all_cycle_diverges : ¬ schedTerminates oracle3 cyc2 := by
  rintro ⟨fuel, r, hrun⟩
  have hnone := cyc2_no_fuel_suffices fuel (initState cyc2) rfl
    (by decide) (by decide)
  unfold plugin_wrapper_rename_all_functions at hrun
  rw [hnone] at hrun
  exact Option.noConfusion hrun

/-- Claim C3, amended: for every finite acyclic call-graph snapshot
(witnessed by a topological ranking bounded by the function count), the
whole-program worklist loop terminates within the explicit fuel bound
`schedFuel n e n n` — an expression in the number of functions `n` and the
number of edges `e` — with every function in the done set. -/
theorem rename_all_acyclic_terminates_bounded (o : Nat → Option String)
    (g : Snapshot) (rank : Nat → Nat) (hc : Closed g) (hnd : g.funcs.Nodup)
    (hrk : Ranked g rank) (hrb : ∀ f ∈ g.funcs, rank f < g.funcs.length) :
    ∃ r, plugin_wrapper_rename_all_functions o g
        (schedFuel g.funcs.length (numEdges g) g.funcs.length g.funcs.length)
        = some r ∧
      ∀ f ∈ g.funcs, f ∈ r.done := by
  obtain ⟨r, h1, -, h3, -⟩ := sched_total (o := o) hc hnd hrk hrb
  exact ⟨r, h1, h3⟩

/-- Witness for the amended C3 on the three-function chain. -/
theorem rename_all_acyclic_terminates_bounded_witness :
    Closed graph3 ∧ graph3.funcs.Nodup ∧ Ranked graph3 rank3 ∧
    (∀ f ∈ graph3.funcs, rank3 f < graph3.funcs.length) ∧
    ∃ r, plugin_wrapper_rename_all_functions oracle3 graph3
        (schedFuel graph3.funcs.length (numEdges graph3)
          graph3.funcs.length graph3.funcs.length) = some r ∧
      ∀ f ∈ graph3.funcs, f ∈ r.done :=
  ⟨by unfold Closed; decide, by decide, by unfold Ranked; decide, by decide,
    rename_all_acyclic_terminates_bounded oracle3 graph3 rank3
      (by unfold Closed; decide) (by decide) (by unfold Ranked; decide)
      (by decide)⟩

/-- Claim C4: on the snapshot `{main → helper1, helper1 → helper2,
helper2 → []}` (functions `0, 1, 2`) with placeholder names everywhere, the
whole-program rename finalizes `helper2` first, then `helper1`, then
`main`, and applies an oracle suggestion to each of the three via the
rename applier. -/
theorem rename_all_chain_scenario :
    (plugin_wrapper_rename_all_functions oracle3 graph3 6).map
        (fun r => (r.done, r.applied)) =
      some ([2, 1, 0],
        [(2, "parse_data"), (1, "helper_one"), (0, "main_logic")]) := by
  decide

/-- Claim C5: whenever a function enters the done set of the whole-program
rename, it was not done before and every one of its callees was already in
the done set — so a callee with no cycle back to its caller is marked done
strictly before the caller. -/
theorem rename_all_dependency_order (o : Nat → Option String) (g : Snapshot)
    (j : Nat) (a : Nat)
    (h : ((stepFn o g)^[j + 1] (initState g)).done =
      ((stepFn o g)^[j] (initState g)).done ++ [a]) :
    a ∉ ((stepFn o g)^[j] (initState g)).done ∧
    ∀ c ∈ g.callees a, c ∈ ((stepFn o g)^[j] (initState g)).done := by
  rw [Function.iterate_succ_apply'] at h
  exact done_entry h

/-- Witness for C5: on the three-function chain, `helper1` enters the done
set at the third iteration, with its callee `helper2` already done. -/
theorem rename_all_dependency_order_witness :
    ((stepFn oracle3 graph3)^[2 + 1] (initState graph3)).done =
      ((stepFn oracle3 graph3)^[2] (initState graph3)).done ++ [1] ∧
    (1 ∉ ((stepFn oracle3 graph3)^[2] (initState graph3)).done ∧
      ∀ c ∈ graph3.callees 1,
        c ∈ ((stepFn oracle3 graph3)^[2] (initState graph3)).done) :=
  ⟨by decide, rename_all_dependency_order oracle3 graph3 2 1 (by decide)⟩

/-- Claim C6: if the oracle fails (returns no suggestion) on function `X`,
a whole-program run on an acyclic snapshot still completes, `X` is still
marked done yet left unrenamed, and every other function is processed and
marked done as well. -/
theorem rename_all_failure_isolation (o : Nat → Option String) (g : Snapshot)
    (rank : Nat → Nat) (X : Nat) (hc : Closed g) (hnd : g.funcs.Nodup)
    (hrk : Ranked g rank) (hrb : ∀ f ∈ g.funcs, rank f < g.funcs.length)
    (hXf : X ∈ g.funcs) (hX : o X = none) :
    ∃ r, plugin_wrapper_rename_all_functions o g
        (schedFuel g.funcs.length (numEdges g) g.funcs.length g.funcs.length)
        = some r ∧
      (∀ f ∈ g.funcs, f ∈ r.done) ∧ X ∈ r.done ∧
      ∀ p ∈ r.applied, p.1 ≠ X := by
  obtain ⟨r, h1, -, h3, j, hrj⟩ := sched_total (o := o) hc hnd hrk hrb
  refine ⟨r, h1, h3, h3 X hXf, ?_⟩
  intro p hp hpx
  have hL := iterate_invariant (o := o) (g := g) (P := LogInv o g)
    (fun _ h => loginv_step h) j (initState g) loginv_init
  rw [← hrj] at hL
  have hsome := (hL.2.2.2.2 p hp).2.1
  rw [hpx, hX] at hsome
  exact Option.noConfusion hsome

/-- Witness for C6: the oracle failing on `helper1` leaves it unrenamed but
done, while the rest of the chain is still processed. -/
theorem rename_all_failure_isolation_witness :
    Closed graph3 ∧ graph3.funcs.Nodup ∧ Ranked graph3 rank3 ∧
    (∀ f ∈ graph3.funcs, rank3 f < graph3.funcs.length) ∧
    1 ∈ graph3.funcs ∧ oracleFail1 1 = none ∧
    ∃ r, plugin_wrapper_rename_all_functions oracleFail1 graph3
        (schedFuel graph3.funcs.length (numEdges graph3)
          graph3.funcs.length graph3.funcs.length) = some r ∧
      (∀ f ∈ graph3.funcs, f ∈ r.done) ∧ 1 ∈ r.done ∧
      ∀ p ∈ r.applied, p.1 ≠ 1 :=
  ⟨by unfold Closed; decide, by decide, by unfold Ranked; decide, by decide,
    by decide, by decide,
    rename_all_failure_isolation oracleFail1 graph3 rank3 1
      (by unfold Closed; decide) (by decide) (by unfold Ranked; decide)
      (by decide) (by decide) (by decide)⟩

/-- Claim C7: within one whole-program run the done set only grows (each
step appends, never removes), stays duplicate-free (each function enters it
exactly once), and the oracle and the rename applier are invoked at most
once per function. -/
theorem rename_all_done_monotone_once (o : Nat → Option String)
    (g : Snapshot) (j : Nat) :
    (∃ l, ((stepFn o g)^[j + 1] (initState g)).done =
      ((stepFn o g)^[j] (initState g)).done ++ l) ∧
    ((stepFn o g)^[j] (initState g)).done.Nodup ∧
    ((stepFn o g)^[j] (initState g)).oracleCalls.Nodup ∧
    (((stepFn o g)^[j] (initState g)).applied.map Prod.fst).Nodup := by
  have hL := iterate_invariant (o := o) (g := g) (P := LogInv o g)
    (fun _ h => loginv_step h) j (initState g) loginv_init
  refine ⟨?_, hL.1, hL.2.1, hL.2.2.1⟩
  rw [Function.iterate_succ_apply']
  rcases done_change (o := o) (g := g) (s := (stepFn o g)^[j] (initState g))
    with h | ⟨c, r, -, -, -, h⟩
  · exact ⟨[], by rw [h, List.append_nil]⟩
  · exact ⟨[c], h⟩

/-- Claim C8: in any sequential sequence of `get_instance` calls starting
from the fresh process, the wrapper is constructed exactly once as soon as
there is at least one call (`min n 1` constructions after `n` calls), and
every caller receives the same first-constructed instance. -/
theorem get_instance_singleton (n : Nat) :
    (callSeq n initProcess).1.constructions = min n 1 ∧
    ∀ w ∈ (callSeq n initProcess).2, w = ⟨0⟩ := by
  cases n with
  | zero =>
      refine ⟨rfl, ?_⟩
      intro w hw
      cases hw
  | succ m =>
      have h1 : get_instance initProcess =
          ({ manager := ⟨some ⟨0⟩⟩, nextId := 1, constructions := 1 }, ⟨0⟩) := rfl
      have h2 := callSeq_stable (w := ⟨0⟩) m
        { manager := ⟨some ⟨0⟩⟩, nextId := 1, constructions := 1 } rfl
      have hall : callSeq (m + 1) initProcess =
          ({ manager := ⟨some ⟨0⟩⟩, nextId := 1, constructions := 1 },
            (⟨0⟩ : FunctionNameGPTWrapper) :: List.replicate m ⟨0⟩) := by
        simp only [callSeq, h1, h2]
      rw [hall]
      refine ⟨by simp [Nat.min_def], ?_⟩
      intro w hw
      rcases List.mem_cons.mp hw with rfl | hw
      · rfl
      · exact List.eq_of_mem_replicate hw

/-- Claim C10, evidence of the race: in the interleaving where both
background tasks first evaluate the `is None` check and only then construct
and assign, both observe the singleton uninitialized and the wrapper is
constructed twice in one process — the unsynchronized check-then-set does
not prevent double construction. -/
theorem get_instance_race_double_construction :
    (runConc [false, true] initConc).thread false =
        ThreadState.observed none ∧
    (runConc [false, true] initConc).thread true =
        ThreadState.observed none ∧
    (runConc [false, true, false, true] initConc).constructions = 2 := by
  refine ⟨by decide, by decide, by decide⟩

/-- Claim C9: restricted to finite acyclic snapshots (witnessed by a
topological ranking bounded by the function count), the whole-program
worklist loop terminates, and whenever it terminates every snapshot
function is in the done set. -/
theorem rename_all_acyclic_all_done (o : Nat → Option String) (g : Snapshot)
    (rank : Nat → Nat) (hc : Closed g) (hnd : g.funcs.Nodup)
    (hrk : Ranked g rank) (hrb : ∀ f ∈ g.funcs, rank f < g.funcs.length) :
    schedTerminates o g ∧
    ∀ fuel r, plugin_wrapper_rename_all_functions o g fuel = some r →
      ∀ f ∈ g.funcs, f ∈ r.done := by
  constructor
  · obtain ⟨r, h1, -⟩ := sched_total (o := o) hc hnd hrk hrb
    exact ⟨_, r, h1⟩
  · intro fuel r hrun f hf
    obtain ⟨j, -, hrj, hnil⟩ := runSched_some_iterate hrun
    have hcov := iterate_invariant (o := o) (g := g)
      (P := fun s => ∀ f ∈ g.funcs, f ∈ s.done ∨ f ∈ s.todo)
      (fun _ h => cover_step h) j (initState g) cover_init
    rw [← hrj] at hcov
    rcases hcov f hf with h | h
    · exact h
    · rw [hnil] at h
      cases h

/-- Witness for C9 on the three-function chain. -/
theorem rename_all_acyclic_all_done_witness :
    Closed graph3 ∧ graph3.funcs.Nodup ∧ Ranked graph3 rank3 ∧
    (∀ f ∈ graph3.funcs, rank3 f < graph3.funcs.length) ∧
    (schedTerminates oracle3 graph3 ∧
      ∀ fuel r, plugin_wrapper_rename_all_functions oracle3 graph3 fuel = some r →
        ∀ f ∈ graph3.funcs, f ∈ r.done) :=
  ⟨by unfold Closed; decide, by decide, by unfold Ranked; decide, by decide,
    rename_all_acyclic_all_done oracle3 graph3 rank3
      (by unfold Closed; decide) (by decide) (by unfold Ranked; decide)
      (by decide)⟩

end BinjaMistral
